/-
Verification of `src/calibre/ebooks/pdf/html_writer.py`: a shallow embedding in
Lean 4 of the PDF conversion pipeline (anchor uniquification, margin grouping,
TOC marker injection, render driving, page reconciliation), with theorems
checking the module's specification.

Conventions:
* Python association structures (dicts over string keys) are modelled as
  association lists with an `alookup` function; keys are unique in every dict
  the code builds, so erasing a key is modelled by filtering it out.
* Margin override objects (parsed JSON dicts of numbers) are modelled as
  `List (String × Int)`; Python dict truthiness (`if margins:`) becomes an
  emptiness test, and `None` becomes `Option.none`.
* The Qt renderer is out of scope (spec §1); its event-loop exit code and the
  produced paginated documents are inputs to the embedded functions.
-/
import Mathlib

namespace HtmlWriter

/-- Association-list lookup, modelling Python `dict.get` / `in` tests. -/
def alookup {α β : Type} [DecidableEq α] : List (α × β) → α → Option β
  | [], _ => none
  | (k, v) :: rest, a => if a = k then some v else alookup rest a

@[simp] theorem alookup_nil {α β : Type} [DecidableEq α] (a : α) :
    alookup ([] : List (α × β)) a = none := rfl

@[simp] theorem alookup_cons {α β : Type} [DecidableEq α] (k : α) (v : β) (rest : List (α × β)) (a : α) :
    alookup ((k, v) :: rest) a = if a = k then some v else alookup rest a := rfl

/-! ## Margin grouper (`create_margin_groups`, html_writer.py lines 148-173)

A spine entry is a pair `(name, margins)` where `margins : Option M` is the
parsed `data-calibre-pdf-output-page-margins` attribute (`none` when absent or
falsy).  The margin type `M` is kept abstract with decidable equality,
modelling Python's structural `!=` on parsed JSON values. -/

/-- `merge_group` (lines 150-156): a run of length > 1 collapses to a single
entry keeping the first member's name and the first member's margins
(`group[0]`); the content-level `merge_html` side effect is modelled
separately. -/
def mergeGroup {M : Type} (group : List (String × Option M)) : List (String × Option M) :=
  match group with
  | [] => []
  | first :: rest => if rest.isEmpty then group else [first]

/-- The flush loop of `create_margin_groups` (lines 158-172), before
`merge_group` is applied: walk the spine, starting a new run whenever the
current entry's margins differ from the previous entry's
(`current_group[-1][1]`). `current` is the pending `current_group`. -/
def marginRunsAux {M : Type} [DecidableEq M] (current : List (String × Option M)) :
    List (String × Option M) → List (List (String × Option M))
  | [] => if current.isEmpty then [] else [current]
  | e :: rest =>
    match current.getLast? with
    | some prev =>
      if prev.2 ≠ e.2 then current :: marginRunsAux [e] rest
      else marginRunsAux (current ++ [e]) rest
    | none => marginRunsAux [e] rest

/-- The runs (`current_group`s at flush time) produced by
`create_margin_groups`. -/
def marginRuns {M : Type} [DecidableEq M] (spine : List (String × Option M)) :
    List (List (String × Option M)) :=
  marginRunsAux [] spine

/-- `create_margin_groups`: each flushed run goes through `merge_group`. -/
def createMarginGroups {M : Type} [DecidableEq M] (spine : List (String × Option M)) :
    List (List (String × Option M)) :=
  (marginRuns spine).map mergeGroup

example : createMarginGroups ([("a", some 1), ("b", some 1), ("c", none)] : List (String × Option Nat)) =
    [[("a", some 1)], [("c", none)]] := by decide

example : marginRuns ([("a", some 1), ("b", some 1), ("c", none), ("d", none)] : List (String × Option Nat)) =
    [[("a", some 1), ("b", some 1)], [("c", none), ("d", none)]] := by decide

section MarginRunsLemmas

variable {M : Type} [DecidableEq M]

theorem marginRunsAux_nil (current : List (String × Option M)) :
    marginRunsAux current [] = if current.isEmpty then [] else [current] := by
  rw [marginRunsAux]

theorem marginRunsAux_cons_none (current : List (String × Option M)) (e : String × Option M)
    (rest : List (String × Option M)) (hl : current.getLast? = none) :
    marginRunsAux current (e :: rest) = marginRunsAux [e] rest := by
  rw [marginRunsAux, hl]

theorem marginRunsAux_cons_last (current : List (String × Option M)) (e : String × Option M)
    (rest : List (String × Option M)) (prev : String × Option M)
    (hl : current.getLast? = some prev) :
    marginRunsAux current (e :: rest) =
      if prev.2 ≠ e.2 then current :: marginRunsAux [e] rest
      else marginRunsAux (current ++ [e]) rest := by
  rw [marginRunsAux, hl]

theorem marginRunsAux_join (spine : List (String × Option M)) :
    ∀ current, (marginRunsAux current spine).flatten = current ++ spine := by
  induction spine with
  | nil =>
    intro current
    by_cases h : current.isEmpty
    · simp [marginRunsAux, h, List.isEmpty_iff.mp h]
    · simp [marginRunsAux, h]
  | cons e rest ih =>
    intro current
    match hl : current.getLast? with
    | none =>
      have hc : current = [] := List.getLast?_eq_none_iff.mp hl
      rw [marginRunsAux_cons_none current e rest hl, hc]
      simpa using ih [e]
    | some prev =>
      rw [marginRunsAux_cons_last current e rest prev hl]
      by_cases hne : prev.2 ≠ e.2
      · simp [hne, ih]
      · rw [if_neg hne, ih]
        simp

theorem marginRunsAux_ne_nil (spine : List (String × Option M)) :
    ∀ current, current ≠ [] → ∀ r ∈ marginRunsAux current spine, r ≠ [] := by
  induction spine with
  | nil =>
    intro current hc r hr
    rw [marginRunsAux_nil] at hr
    simp [List.isEmpty_iff, hc] at hr
    simpa [hr]
  | cons e rest ih =>
    intro current hc r hr
    match hl : current.getLast? with
    | none => exact absurd (List.getLast?_eq_none_iff.mp hl) hc
    | some prev =>
      rw [marginRunsAux_cons_last current e rest prev hl] at hr
      by_cases hne : prev.2 ≠ e.2
      · rw [if_pos hne] at hr
        rcases List.mem_cons.mp hr with h | h
        · simpa [h] using hc
        · exact ih [e] (by simp) r h
      · rw [if_neg hne] at hr
        exact ih (current ++ [e]) (by simp) r hr

theorem marginRunsAux_same_margins (spine : List (String × Option M)) :
    ∀ current, (∀ p ∈ current, ∀ q ∈ current, p.2 = q.2) →
      ∀ r ∈ marginRunsAux current spine, ∀ p ∈ r, ∀ q ∈ r, p.2 = q.2 := by
  induction spine with
  | nil =>
    intro current hcur r hr
    rw [marginRunsAux_nil] at hr
    by_cases h : current.isEmpty
    · simp [h] at hr
    · simp [h] at hr
      simpa [hr] using hcur
  | cons e rest ih =>
    intro current hcur r hr
    match hl : current.getLast? with
    | none =>
      rw [marginRunsAux_cons_none current e rest hl] at hr
      exact ih [e] (by simp) r hr
    | some prev =>
      rw [marginRunsAux_cons_last current e rest prev hl] at hr
      by_cases hne : prev.2 ≠ e.2
      · rw [if_pos hne] at hr
        rcases List.mem_cons.mp hr with h | h
        · subst h; exact hcur
        · exact ih [e] (by simp) r h
      · rw [if_neg hne] at hr
        refine ih (current ++ [e]) ?_ r hr
        have heq : prev.2 = e.2 := not_not.mp (by simpa using hne)
        have hprev : prev ∈ current := List.mem_of_getLast?_eq_some hl
        intro p hp q hq
        rcases List.mem_append.mp hp with hp | hp <;>
          rcases List.mem_append.mp hq with hq | hq
        · exact hcur p hp q hq
        · simp at hq
          rw [hq, ← heq]
          exact hcur p hp prev hprev
        · simp at hp
          rw [hp, ← heq]
          exact (hcur q hq prev hprev).symm
        · simp at hp hq
          rw [hp, hq]

theorem marginRunsAux_head (spine : List (String × Option M)) :
    ∀ current, current ≠ [] →
      ∃ r rs, marginRunsAux current spine = r :: rs ∧ r.head? = current.head? := by
  induction spine with
  | nil =>
    intro current hc
    refine ⟨current, [], ?_, rfl⟩
    rw [marginRunsAux_nil]
    simp [List.isEmpty_iff, hc]
  | cons e rest ih =>
    intro current hc
    match hl : current.getLast? with
    | none => exact absurd (List.getLast?_eq_none_iff.mp hl) hc
    | some prev =>
      rw [marginRunsAux_cons_last current e rest prev hl]
      by_cases hne : prev.2 ≠ e.2
      · exact ⟨current, marginRunsAux [e] rest, by rw [if_pos hne], rfl⟩
      · rw [if_neg hne]
        obtain ⟨r, rs, heq, hhead⟩ := ih (current ++ [e]) (by simp)
        refine ⟨r, rs, heq, ?_⟩
        rw [hhead]
        match current, hc with
        | c :: cs, _ => simp

/-- The relation between adjacent runs certifying maximality: the boundary
elements carry different margins. -/
def runBoundary {M : Type} (r s : List (String × Option M)) : Prop :=
  ∀ p q, r.getLast? = some p → s.head? = some q → p.2 ≠ q.2

theorem marginRunsAux_chain (spine : List (String × Option M)) :
    ∀ current, current ≠ [] → List.Chain' runBoundary (marginRunsAux current spine) := by
  induction spine with
  | nil =>
    intro current hc
    rw [marginRunsAux]
    simp [List.isEmpty_iff, hc]
  | cons e rest ih =>
    intro current hc
    match hl : current.getLast? with
    | none => exact absurd (List.getLast?_eq_none_iff.mp hl) hc
    | some prev =>
      rw [marginRunsAux_cons_last current e rest prev hl]
      by_cases hne : prev.2 ≠ e.2
      · rw [if_pos hne]
        obtain ⟨r, rs, heq, hhead⟩ := marginRunsAux_head rest [e] (by simp)
        rw [heq]
        refine List.Chain'.cons ?_ (by rw [← heq]; exact ih [e] (by simp))
        intro p q hp hq
        rw [hl] at hp
        rw [hhead] at hq
        simp at hp hq
        rw [← hp, ← hq] at *
        simpa using hne
      · rw [if_neg hne]
        exact ih (current ++ [e]) (by simp)

end MarginRunsLemmas

/-- C3: `create_margin_groups` partitions the spine into maximal contiguous
runs of structurally-equal margins, in original order, covering every section
exactly once; a run of size ≥ 2 is merged into a single section which is
exactly the run's first member (its name and its margins). -/
theorem claim_C3_margin_grouping {M : Type} [DecidableEq M]
    (spine : List (String × Option M)) :
    (marginRuns spine).flatten = spine
    ∧ (∀ r ∈ marginRuns spine, r ≠ [])
    ∧ (∀ r ∈ marginRuns spine, ∀ p ∈ r, ∀ q ∈ r, p.2 = q.2)
    ∧ List.Chain' runBoundary (marginRuns spine)
    ∧ createMarginGroups spine = (marginRuns spine).map mergeGroup
    ∧ (∀ g : List (String × Option M), 2 ≤ g.length → mergeGroup g = g.take 1) := by
  refine ⟨by simpa using marginRunsAux_join spine [], ?_, ?_, ?_, rfl, ?_⟩
  · intro r hr
    match spine, hr with
    | e :: rest, hr =>
      rw [marginRuns, marginRunsAux] at hr
      exact marginRunsAux_ne_nil rest [e] (by simp) r (by simpa using hr)
  · intro r hr
    exact marginRunsAux_same_margins spine [] (by simp) r hr
  · match spine with
    | [] => simp [marginRuns, marginRunsAux]
    | e :: rest =>
      rw [marginRuns, marginRunsAux]
      exact marginRunsAux_chain rest [e] (by simp)
  · intro g hg
    match g, hg with
    | x :: y :: gs, _ => simp [mergeGroup]

/-- Witness for C3 at a concrete three-section spine with margins
`1, 1, none`: the runs cover the spine, and a length-2 run merges to its
first member. -/
theorem claim_C3_witness :
    (marginRuns ([("a", some 1), ("b", some 1), ("c", none)] : List (String × Option Nat))).flatten
        = [("a", some 1), ("b", some 1), ("c", none)]
    ∧ mergeGroup ([("a", some 1), ("b", some 1)] : List (String × Option Nat)) =
        [("a", some 1), ("b", some 1)].take 1
    ∧ ([("a", some 1), ("b", some 1)] : List (String × Option Nat)) ≠ [] :=
  ⟨(claim_C3_margin_grouping [("a", some 1), ("b", some 1), ("c", none)]).1,
   (claim_C3_margin_grouping [("x", some 1)]).2.2.2.2.2 [("a", some 1), ("b", some 1)] (by decide),
   (claim_C3_margin_grouping [("a", some 1), ("b", some 1), ("c", none)]).2.1
     [("a", some 1), ("b", some 1)] (by decide)⟩

/-! ## Decimal representation facts

`make_anchors_unique` names its ids `'a{}'.format(count)`, i.e. `"a"` followed
by the decimal representation of the counter.  The uniqueness claim needs that
distinct counters give distinct id strings, so we prove `Nat.repr` injective. -/

/-- Big-endian decimal digits of `n` (mathematical counterpart of core's
fuel-driven `Nat.toDigitsCore`). -/
def decDigits (n : Nat) : List Nat :=
  if _h : n < 10 then [n] else decDigits (n / 10) ++ [n % 10]
  decreasing_by exact Nat.div_lt_self (by omega) (by omega)

theorem decDigits_eq_small {n : Nat} (h : n < 10) : decDigits n = [n] := by
  rw [decDigits, dif_pos h]

theorem decDigits_eq_big {n : Nat} (h : ¬ n < 10) :
    decDigits n = decDigits (n / 10) ++ [n % 10] := by
  rw [decDigits, dif_neg h]

theorem decDigits_ne_nil (n : Nat) : decDigits n ≠ [] := by
  rw [decDigits]
  by_cases h : n < 10
  · simp [h]
  · simp [h]

theorem decDigits_lt (n : Nat) : ∀ d ∈ decDigits n, d < 10 := by
  induction n using Nat.strong_induction_on with
  | _ n ih =>
    rw [decDigits]
    by_cases h : n < 10
    · intro d hd
      simp [h] at hd
      omega
    · rw [dif_neg h]
      intro d hd
      rcases List.mem_append.mp hd with hd | hd
      · exact ih (n / 10) (Nat.div_lt_self (by omega) (by omega)) d hd
      · simp at hd
        subst hd
        exact Nat.mod_lt _ (by omega)

theorem decDigits_injective : ∀ m n : Nat, decDigits m = decDigits n → m = n := by
  intro m
  induction m using Nat.strong_induction_on with
  | _ m ih =>
    intro n h
    by_cases hm : m < 10 <;> by_cases hn : n < 10
    · rw [decDigits_eq_small hm, decDigits_eq_small hn] at h
      simpa using h
    · rw [decDigits_eq_small hm, decDigits_eq_big hn] at h
      have := congrArg List.length h
      simp at this
      exact absurd this (decDigits_ne_nil (n / 10))
    · rw [decDigits_eq_big hm, decDigits_eq_small hn] at h
      have := congrArg List.length h
      simp at this
      exact absurd this (decDigits_ne_nil (m / 10))
    · rw [decDigits_eq_big hm, decDigits_eq_big hn] at h
      obtain ⟨h1, h2⟩ := List.append_inj' h (by simp)
      have hdm : m / 10 = n / 10 := ih (m / 10) (Nat.div_lt_self (by omega) (by omega)) (n / 10) h1
      have hmm : m % 10 = n % 10 := by simpa using h2
      have em : 10 * (m / 10) + m % 10 = m := Nat.div_add_mod m 10
      have en : 10 * (n / 10) + n % 10 = n := Nat.div_add_mod n 10
      omega

theorem digitChar_lt_injective :
    ∀ a < 10, ∀ b < 10, Nat.digitChar a = Nat.digitChar b → a = b := by decide

theorem toDigitsCore_eq_decDigits :
    ∀ (fuel n : Nat) (acc : List Char), n < fuel →
      Nat.toDigitsCore 10 fuel n acc = (decDigits n).map Nat.digitChar ++ acc := by
  intro fuel
  induction fuel with
  | zero => omega
  | succ fuel ih =>
    intro n acc hlt
    rw [Nat.toDigitsCore]
    by_cases h : n / 10 = 0
    · have h10 : n < 10 := by
        have := Nat.div_add_mod n 10
        have := Nat.mod_lt n (show 0 < 10 by omega)
        omega
      rw [if_pos h, decDigits_eq_small h10, Nat.mod_eq_of_lt h10]
      simp
    · have h10 : ¬ n < 10 := fun hc => h (Nat.div_eq_of_lt hc)
      rw [if_neg h, decDigits_eq_big h10]
      have hfuel : n / 10 < fuel :=
        Nat.lt_of_lt_of_le (Nat.div_lt_self (by omega) (by omega)) (Nat.lt_succ_iff.mp hlt)
      rw [ih (n / 10) _ hfuel]
      simp

theorem natRepr_eq_decDigits (n : Nat) :
    Nat.repr n = ((decDigits n).map Nat.digitChar).asString := by
  rw [Nat.repr, Nat.toDigits, toDigitsCore_eq_decDigits (n + 1) n [] (Nat.lt_succ_self n)]
  simp

theorem natRepr_injective : ∀ m n : Nat, Nat.repr m = Nat.repr n → m = n := by
  intro m n h
  rw [natRepr_eq_decDigits, natRepr_eq_decDigits] at h
  have hdata : (decDigits m).map Nat.digitChar = (decDigits n).map Nat.digitChar := by
    have := congrArg String.data h
    simpa [List.asString] using this
  refine decDigits_injective m n ?_
  clear h
  have hm := decDigits_lt m
  have hn := decDigits_lt n
  revert hdata hm hn
  generalize decDigits m = lm
  generalize decDigits n = ln
  induction lm generalizing ln with
  | nil => cases ln <;> simp
  | cons a la ihl =>
    cases ln with
    | nil => simp
    | cons b lb =>
      intro hdata hm hn
      simp at hdata
      have hab : a = b :=
        digitChar_lt_injective a (hm a (by simp)) b (hn b (by simp)) hdata.1
      have := ihl lb hdata.2 (fun d hd => hm d (by simp [hd])) (fun d hd => hn d (by simp [hd]))
      simp [hab, this]

/-- The synthetic id `'a{}'.format(count)` from line 257. -/
def aNum (n : Nat) : String := "a" ++ Nat.repr n

theorem aNum_injective : ∀ m n : Nat, aNum m = aNum n → m = n := by
  intro m n h
  refine natRepr_injective m n ?_
  have := congrArg String.data h
  simp only [aNum] at this
  have hsplit : ∀ s t : String, (s ++ t).data = s.data ++ t.data := by
    intro s t
    cases s; cases t; rfl
  rw [hsplit, hsplit] at this
  have : (Nat.repr m).data = (Nat.repr n).data := by
    simpa using this
  cases hm : Nat.repr m
  cases hn : Nat.repr n
  rw [hm, hn] at this
  simp at this
  simp [this]

/-! ## Anchor uniquifier (`make_anchors_unique`, lines 225-263)

A document is modelled as the spine-ordered list of sections, each section
being its name together with the ids of its id-carrying elements in document
order (`root.xpath('//*[@id]')`). -/

abbrev IdMapping := List ((String × String) × String)

/-- The id-assignment loop body (lines 253-258) over one section's id-carrying
elements: `count` increments once per element; a key `(spine_name, id)` not yet
in `mapping` is assigned the fresh id `'a{}'.format(count)` and the element is
rewritten; a key already present leaves the element untouched.  Returns the
final counter, the extended mapping, and per element the new id it was
assigned (`none` if untouched). -/
def uniqElems (name : String) : Nat → IdMapping → List String →
    Nat × IdMapping × List (Option String)
  | count, mapping, [] => (count, mapping, [])
  | count, mapping, i :: rest =>
    let count' := count + 1
    match alookup mapping (name, i) with
    | some _ =>
      let r := uniqElems name count' mapping rest
      (r.1, r.2.1, none :: r.2.2)
    | none =>
      let newId := aNum count'
      let r := uniqElems name count' (((name, i), newId) :: mapping) rest
      (r.1, r.2.1, some newId :: r.2.2)

/-- The outer loop over the spine (lines 251-258). -/
def uniqSections : Nat → IdMapping → List (String × List String) →
    Nat × IdMapping × List (String × List (Option String))
  | count, mapping, [] => (count, mapping, [])
  | count, mapping, (name, ids) :: rest =>
    let r := uniqElems name count mapping ids
    let r2 := uniqSections r.1 r.2.1 rest
    (r2.1, r2.2.1, (name, r.2.2) :: r2.2.2)

/-- `make_anchors_unique`'s id pass: `count = 0`, empty `mapping`. -/
def makeAnchorsUnique (doc : List (String × List String)) :
    Nat × IdMapping × List (String × List (Option String)) :=
  uniqSections 0 [] doc

/-- Number of id-carrying elements in the document. -/
def numIdElems (doc : List (String × List String)) : Nat :=
  (doc.map (fun s => s.2.length)).sum

/-- The new ids assigned by the pass, in traversal order. -/
def assignedIds (doc : List (String × List String)) : List String :=
  ((makeAnchorsUnique doc).2.2.map (fun s => s.2.filterMap id)).flatten

/-- The final id of every id-carrying element after the pass, in traversal
order: the assigned id where one was assigned, the original id otherwise. -/
def finalIds (doc : List (String × List String)) : List String :=
  (List.zipWith (fun (s : String × List String) (o : String × List (Option String)) =>
      List.zipWith (fun i n => n.getD i) s.2 o.2)
    doc (makeAnchorsUnique doc).2.2).flatten

/-- The keys `(spine_name, id)` of the whole traversal, in order. -/
def traversalKeys (doc : List (String × List String)) : List (String × String) :=
  (doc.map (fun s => s.2.map (fun i => (s.1, i)))).flatten

example : makeAnchorsUnique [("s", ["x", "y"]), ("t", ["x"])] =
    (3, [(("t", "x"), "a3"), (("s", "y"), "a2"), (("s", "x"), "a1")],
     [("s", [some "a1", some "a2"]), ("t", [some "a3"])]) := by decide

example : assignedIds [("s", ["x", "x"])] = ["a1"] := by decide

section UniqLemmas

theorem uniqElems_cons_hit (name i : String) (count : Nat) (mapping : IdMapping)
    (rest : List String) (v : String) (h : alookup mapping (name, i) = some v) :
    uniqElems name count mapping (i :: rest) =
      ((uniqElems name (count + 1) mapping rest).1,
       (uniqElems name (count + 1) mapping rest).2.1,
       none :: (uniqElems name (count + 1) mapping rest).2.2) := by
  rw [uniqElems, h]

theorem uniqElems_cons_fresh (name i : String) (count : Nat) (mapping : IdMapping)
    (rest : List String) (h : alookup mapping (name, i) = none) :
    uniqElems name count mapping (i :: rest) =
      ((uniqElems name (count + 1) (((name, i), aNum (count + 1)) :: mapping) rest).1,
       (uniqElems name (count + 1) (((name, i), aNum (count + 1)) :: mapping) rest).2.1,
       some (aNum (count + 1)) ::
         (uniqElems name (count + 1) (((name, i), aNum (count + 1)) :: mapping) rest).2.2) := by
  rw [uniqElems, h]

theorem filterMap_id_map_some {α β : Type} (f : α → β) (l : List α) :
    (l.map (fun a => some (f a))).filterMap id = l.map f := by
  induction l with
  | nil => rfl
  | cons a l ih => simp [ih]

theorem uniqElems_spec (name : String) (ids : List String) :
    ∀ (count : Nat) (mapping : IdMapping),
      (∀ i ∈ ids, alookup mapping (name, i) = none) → ids.Nodup →
      (uniqElems name count mapping ids).1 = count + ids.length
      ∧ (uniqElems name count mapping ids).2.2 =
          (List.range ids.length).map (fun j => some (aNum (count + j + 1)))
      ∧ (∀ k, alookup mapping k = none → k ∉ ids.map (fun i => (name, i)) →
          alookup (uniqElems name count mapping ids).2.1 k = none) := by
  induction ids with
  | nil => intro count mapping _ _; exact ⟨rfl, rfl, fun k hk _ => hk⟩
  | cons i rest ih =>
    intro count mapping hfresh hnd
    have hi : alookup mapping (name, i) = none := hfresh i (by simp)
    have hfresh' : ∀ j ∈ rest, alookup (((name, i), aNum (count + 1)) :: mapping) (name, j) = none := by
      intro j hj
      have hji : j ≠ i := by
        rintro rfl
        exact (List.nodup_cons.mp hnd).1 hj
      simp [hji, hfresh j (by simp [hj])]
    obtain ⟨h1, h2, h3⟩ := ih (count + 1) (((name, i), aNum (count + 1)) :: mapping)
      hfresh' (List.nodup_cons.mp hnd).2
    rw [uniqElems_cons_fresh name i count mapping rest hi]
    refine ⟨by simpa [Nat.add_comm, Nat.add_assoc, Nat.add_left_comm] using h1, ?_, ?_⟩
    · rw [h2, List.length_cons, List.range_succ_eq_map, List.map_cons, List.map_map]
      refine congrArg (List.cons _) ?_
      refine List.map_congr_left ?_
      intro j hj
      simp only [Function.comp_apply]
      have harith : count + 1 + j + 1 = count + (j + 1) + 1 := by omega
      rw [harith]
    · intro k hk hkmem
      refine h3 k ?_ ?_
      · have hki : k ≠ (name, i) := by
          rintro rfl
          exact hkmem (by simp)
        simp [hki, hk]
      · intro hmem
        exact hkmem (by simp at hmem ⊢; exact Or.inr hmem)

/-- Closed form of the per-section outputs when every traversal key is fresh:
section after section, each element is assigned the next counter value. -/
def sectionsOut (count : Nat) : List (String × List String) → List (String × List (Option String))
  | [] => []
  | (name, ids) :: rest =>
    (name, (List.range ids.length).map (fun j => some (aNum (count + j + 1)))) ::
      sectionsOut (count + ids.length) rest

theorem uniqSections_spec (doc : List (String × List String)) :
    ∀ (count : Nat) (mapping : IdMapping),
      (∀ k ∈ traversalKeys doc, alookup mapping k = none) → (traversalKeys doc).Nodup →
      (uniqSections count mapping doc).1 = count + numIdElems doc
      ∧ (uniqSections count mapping doc).2.2 = sectionsOut count doc := by
  induction doc with
  | nil => intro count mapping _ _; exact ⟨rfl, rfl⟩
  | cons s rest ih =>
    intro count mapping hfresh hnd
    obtain ⟨name, ids⟩ := s
    have hkeys : traversalKeys ((name, ids) :: rest) =
        ids.map (fun i => (name, i)) ++ traversalKeys rest := by
      simp [traversalKeys]
    rw [hkeys] at hfresh hnd
    have hidnd : ids.Nodup := by
      have := (List.nodup_append.mp hnd).1
      exact this.of_map
    obtain ⟨e1, e2, e3⟩ := uniqElems_spec name ids count mapping
      (fun i hi => hfresh (name, i) (List.mem_append_left _ (by simp [hi]))) hidnd
    have hfresh2 : ∀ k ∈ traversalKeys rest,
        alookup (uniqElems name count mapping ids).2.1 k = none := by
      intro k hk
      refine e3 k (hfresh k (List.mem_append_right _ hk)) ?_
      intro hmem
      rcases List.nodup_append.mp hnd with ⟨-, -, hdisj⟩
      exact hdisj hmem hk
    obtain ⟨i1, i2⟩ := ih (uniqElems name count mapping ids).1
      (uniqElems name count mapping ids).2.1 hfresh2 (List.nodup_append.mp hnd).2.1
    rw [uniqSections]
    refine ⟨?_, ?_⟩
    · rw [i1, e1]
      simp [numIdElems, Nat.add_assoc]
    · rw [sectionsOut, ← e2, i2, e1]

theorem sectionsOut_assigned (count : Nat) (doc : List (String × List String)) :
    ((sectionsOut count doc).map (fun s => s.2.filterMap id)).flatten =
      (List.range (numIdElems doc)).map (fun j => aNum (count + j + 1)) := by
  induction doc generalizing count with
  | nil => simp [sectionsOut, numIdElems]
  | cons s rest ih =>
    obtain ⟨name, ids⟩ := s
    rw [sectionsOut]
    simp only [List.map_cons, List.flatten_cons, ih (count + ids.length)]
    have : numIdElems ((name, ids) :: rest) = ids.length + numIdElems rest := by
      simp [numIdElems]
    rw [this, List.range_add, List.map_append]
    congr 1
    · exact filterMap_id_map_some _ _
    · rw [List.map_map]
      refine List.map_congr_left ?_
      intro j _
      simp [Function.comp]
      congr 1
      omega

theorem sectionsOut_lengths (count : Nat) (doc : List (String × List String)) :
    (sectionsOut count doc).map (fun s => s.2.length) = doc.map (fun s => s.2.length) := by
  induction doc generalizing count with
  | nil => simp [sectionsOut]
  | cons s rest ih =>
    obtain ⟨name, ids⟩ := s
    rw [sectionsOut]
    simp [ih]

theorem zipWith_getD_map_some {α : Type} (ids : List α) (l : List α)
    (h : ids.length = l.length) :
    List.zipWith (fun i n => n.getD i) ids (l.map some) = l := by
  induction ids generalizing l with
  | nil =>
    cases l with
    | nil => rfl
    | cons b l => simp at h
  | cons a la ih =>
    cases l with
    | nil => simp at h
    | cons b lb =>
      simp at h
      simp [ih lb h]

theorem sectionsOut_final (count : Nat) (doc : List (String × List String)) :
    (List.zipWith (fun (s : String × List String) (o : String × List (Option String)) =>
        List.zipWith (fun i n => n.getD i) s.2 o.2) doc (sectionsOut count doc)).flatten =
      ((sectionsOut count doc).map (fun s => s.2.filterMap id)).flatten := by
  induction doc generalizing count with
  | nil => rfl
  | cons s rest ih =>
    obtain ⟨name, ids⟩ := s
    rw [sectionsOut]
    simp only [List.zipWith_cons_cons, List.flatten_cons, List.map_cons]
    rw [ih (count + ids.length)]
    congr 1
    rw [filterMap_id_map_some]
    have hsplit : (List.range ids.length).map (fun j => some (aNum (count + j + 1))) =
        ((List.range ids.length).map (fun j => aNum (count + j + 1))).map some := by
      rw [List.map_map]
      rfl
    rw [hsplit]
    exact zipWith_getD_map_some ids _ (by rw [List.length_map, List.length_range])

theorem aNum_succ_injective : Function.Injective (fun j => aNum (j + 1)) := by
  intro a b h
  have := aNum_injective (a + 1) (b + 1) h
  omega

end UniqLemmas

/-- C1 (amended): for every document in which no two id-carrying elements
share the same `(section, id)` key — in particular, ids are unique within each
section — `make_anchors_unique` assigns every id-carrying element a new id,
the assigned ids are exactly `a1, …, aN` (counter starting at 1, one increment
per element, no gaps) in traversal order (spine order, then document order
within a section), and they are pairwise distinct.  (The unamended claim,
quantifying over all documents, fails when a section repeats an id: see the
counterexample.) -/
theorem claim_C1_unique_ids (doc : List (String × List String))
    (hnd : (traversalKeys doc).Nodup) :
    assignedIds doc = (List.range (numIdElems doc)).map (fun j => aNum (j + 1))
    ∧ finalIds doc = assignedIds doc
    ∧ (assignedIds doc).Nodup := by
  have hspec := uniqSections_spec doc 0 [] (by intro k _; rfl) hnd
  have hout : (makeAnchorsUnique doc).2.2 = sectionsOut 0 doc := hspec.2
  have hassigned : assignedIds doc = (List.range (numIdElems doc)).map (fun j => aNum (j + 1)) := by
    rw [assignedIds, hout, sectionsOut_assigned]
    refine List.map_congr_left ?_
    intro j _
    congr 1
    omega
  refine ⟨hassigned, ?_, ?_⟩
  · rw [finalIds, hout, sectionsOut_final, assignedIds, hout]
  · rw [hassigned]
    exact (List.nodup_range _).map aNum_succ_injective

/-- C1 counterexample: a document whose single section carries two elements
with the same id `"x"` has `N = 2` id-carrying elements, but only one new id
(`a1`) is assigned — the second element keeps its original id — so the new
ids are not `{a1, a2}` as the claim states for every document. -/
theorem claim_C1_counterexample :
    numIdElems [("s", ["x", "x"])] = 2
    ∧ assignedIds [("s", ["x", "x"])] = ["a1"]
    ∧ "a2" ∉ assignedIds [("s", ["x", "x"])]
    ∧ finalIds [("s", ["x", "x"])] = ["a1", "x"] := by
  refine ⟨rfl, by decide, by decide, by decide⟩

/-- Witness for C1 at a concrete two-section document: keys are distinct,
both conclusions evaluate. -/
theorem claim_C1_witness :
    assignedIds [("s", ["x", "y"]), ("t", ["x"])] =
      (List.range (numIdElems [("s", ["x", "y"]), ("t", ["x"])])).map (fun j => aNum (j + 1))
    ∧ finalIds [("s", ["x", "y"]), ("t", ["x"])] = assignedIds [("s", ["x", "y"]), ("t", ["x"])]
    ∧ (assignedIds [("s", ["x", "y"]), ("t", ["x"])]).Nodup :=
  claim_C1_unique_ids [("s", ["x", "y"]), ("t", ["x"])] (by decide)

/-! ## Render driver (`Renderer.convert_html_file`, lines 110-122)

The Qt event loop is external: its exit code (`ret = self.run_loop()`) and the
pdf bytes captured by `printing_done` are inputs.  `convert_html_file` then
either returns the bytes (exit code `OK`) or raises `SystemExit` with one of
three distinguishable causes.  The failure taxonomy is shared with the
serialization step of `convert` (claim C10). -/

/-- Exit codes: `OK, LOAD_FAILED, KILL_SIGNAL = range(0, 3)` (line 33). -/
def OK : Nat := 0

def LOAD_FAILED : Nat := 1

def KILL_SIGNAL : Nat := 2

/-- Python-level failures the pipeline can raise: the three `SystemExit`
causes of `convert_html_file`, and the `AttributeError` from calling
`.write()` on `pdf_doc = None` (line 318 with an empty group list). -/
inductive PyFailure where
  | loadFailed (path : String)
  | killSignal
  | unknownError
  | attributeErrorNoneWrite
deriving DecidableEq

abbrev ByteSeq := List Nat

/-- `convert_html_file` (lines 110-122) after the event loop exited with code
`ret`, having captured `pdfData`. -/
def convertHtmlFile (path : String) (ret : Nat) (pdfData : ByteSeq) :
    Except PyFailure ByteSeq :=
  if ret = LOAD_FAILED then .error (.loadFailed path)
  else if ret = KILL_SIGNAL then .error .killSignal
  else if ret ≠ OK then .error .unknownError
  else .ok pdfData

/-- C6: `convert_html_file` yields exactly one of three terminal outcomes: the
rendered bytes when the loop exits with `OK`, and otherwise an error
distinguishing load failure, kill signal, and unrecognized exit codes; no
non-success case returns output. -/
theorem claim_C6_render_outcomes (path : String) (ret : Nat) (pdfData : ByteSeq) :
    (ret = OK → convertHtmlFile path ret pdfData = .ok pdfData)
    ∧ (ret = LOAD_FAILED → convertHtmlFile path ret pdfData = .error (.loadFailed path))
    ∧ (ret = KILL_SIGNAL → convertHtmlFile path ret pdfData = .error .killSignal)
    ∧ (ret ≠ OK → ret ≠ LOAD_FAILED → ret ≠ KILL_SIGNAL →
        convertHtmlFile path ret pdfData = .error .unknownError)
    ∧ (ret ≠ OK → ∀ b : ByteSeq, convertHtmlFile path ret pdfData ≠ .ok b) := by
  refine ⟨?_, ?_, ?_, ?_, ?_⟩
  · rintro rfl
    rfl
  · rintro rfl
    rfl
  · rintro rfl
    rfl
  · intro h0 h1 h2
    simp [convertHtmlFile, h0, h1, h2]
  · intro h0 b
    rw [convertHtmlFile]
    by_cases h1 : ret = LOAD_FAILED
    · simp [h1]
    by_cases h2 : ret = KILL_SIGNAL
    · simp [h1, h2, LOAD_FAILED, KILL_SIGNAL]
    · simp [h1, h2, h0]

/-- Witness for C6 at concrete exit codes 0, 1, 2, 7. -/
theorem claim_C6_witness :
    convertHtmlFile "f.html" 0 [3, 4] = .ok [3, 4]
    ∧ convertHtmlFile "f.html" 1 [3, 4] = .error (.loadFailed "f.html")
    ∧ convertHtmlFile "f.html" 2 [3, 4] = .error .killSignal
    ∧ convertHtmlFile "f.html" 7 [3, 4] = .error .unknownError
    ∧ convertHtmlFile "f.html" 2 [3, 4] ≠ .ok [9] :=
  ⟨(claim_C6_render_outcomes "f.html" 0 [3, 4]).1 rfl,
   (claim_C6_render_outcomes "f.html" 1 [3, 4]).2.1 rfl,
   (claim_C6_render_outcomes "f.html" 2 [3, 4]).2.2.1 rfl,
   (claim_C6_render_outcomes "f.html" 7 [3, 4]).2.2.2.1 (by decide) (by decide) (by decide),
   (claim_C6_render_outcomes "f.html" 2 [3, 4]).2.2.2.2 (by decide) [9]⟩

/-! ## Page layout handling (`render_name`, lines 176-192)

`QPageLayout` is modelled by its margin rectangle in points (the only state
the code touches after `setUnits(Point)`); a parsed margin override dict is a
`List (String × Int)` of JSON number fields keyed by `left/top/right/bottom`
(other keys are carried but ignored by `.get`). -/

structure QMarginsF where
  left : Int
  top : Int
  right : Int
  bottom : Int
deriving DecidableEq

structure QPageLayout where
  margins : QMarginsF
deriving DecidableEq

abbrev MarginsDict := List (String × Int)

/-- The layout handling of `render_name` (lines 176-188), modelling object
mutability explicitly: returns (value of the caller's `page_layout` object
after the call, layout handed to `renderer.convert_html_file`).  When the
override is truthy, `QPageLayout(page_layout)` makes a fresh copy and
`setMargins` mutates only that copy, so the first component is unchanged. -/
def renderNameLayout (pageLayout : QPageLayout) (margins : Option MarginsDict) :
    QPageLayout × QPageLayout :=
  match margins with
  | none => (pageLayout, pageLayout)
  | some m =>
    if m.isEmpty then (pageLayout, pageLayout)
    else
      let copy := pageLayout
      let old := copy.margins
      let newMargins : QMarginsF :=
        { left := (alookup m "left").getD old.left
          top := (alookup m "top").getD old.top
          right := (alookup m "right").getD old.right
          bottom := (alookup m "bottom").getD old.bottom }
      (pageLayout, { copy with margins := newMargins })

/-- The layout passed to the renderer for a given group. -/
def effectiveLayout (pageLayout : QPageLayout) (margins : Option MarginsDict) : QPageLayout :=
  (renderNameLayout pageLayout margins).2

/-- The render loop of `convert` (lines 295-297) restricted to its layout
data flow: the same `page_layout` object is passed to `render_name` for every
group; the state of that object is threaded through the calls, and the layout
each group was rendered with is collected. -/
def convertLayouts (pageLayout : QPageLayout) : List (Option MarginsDict) → List QPageLayout
  | [] => []
  | m :: rest =>
    let r := renderNameLayout pageLayout m
    r.2 :: convertLayouts r.1 rest

/-- C8: for a group with a non-empty margin override, `render_name` replaces
exactly the margin dimensions present in the override and keeps each absent
dimension from the base layout; a group with no override (or a falsy empty
one) renders with the base layout as-is. -/
theorem claim_C8_margin_override (base : QPageLayout) (m : MarginsDict) (hm : m ≠ []) :
    (effectiveLayout base (some m)).margins.left =
        ((alookup m "left").getD base.margins.left)
    ∧ (effectiveLayout base (some m)).margins.top =
        ((alookup m "top").getD base.margins.top)
    ∧ (effectiveLayout base (some m)).margins.right =
        ((alookup m "right").getD base.margins.right)
    ∧ (effectiveLayout base (some m)).margins.bottom =
        ((alookup m "bottom").getD base.margins.bottom)
    ∧ effectiveLayout base none = base
    ∧ effectiveLayout base (some []) = base := by
  have hne : m.isEmpty = false := by
    cases m with
    | nil => exact absurd rfl hm
    | cons a l => rfl
  refine ⟨?_, ?_, ?_, ?_, rfl, rfl⟩ <;>
    simp [effectiveLayout, renderNameLayout, hne]

/-- Witness for C8: an override giving only `top` replaces `top` and keeps
the other three dimensions of the base layout. -/
theorem claim_C8_witness :
    (effectiveLayout ⟨⟨10, 20, 30, 40⟩⟩ (some [("top", 36)])).margins.left =
        ((alookup [("top", (36 : Int))] "left").getD 10)
    ∧ (effectiveLayout ⟨⟨10, 20, 30, 40⟩⟩ (some [("top", 36)])).margins.top =
        ((alookup [("top", (36 : Int))] "top").getD 20)
    ∧ (effectiveLayout ⟨⟨10, 20, 30, 40⟩⟩ (some [("top", 36)])).margins.right =
        ((alookup [("top", (36 : Int))] "right").getD 30)
    ∧ (effectiveLayout ⟨⟨10, 20, 30, 40⟩⟩ (some [("top", 36)])).margins.bottom =
        ((alookup [("top", (36 : Int))] "bottom").getD 40)
    ∧ effectiveLayout ⟨⟨10, 20, 30, 40⟩⟩ none = ⟨⟨10, 20, 30, 40⟩⟩
    ∧ effectiveLayout ⟨⟨10, 20, 30, 40⟩⟩ (some []) = ⟨⟨10, 20, 30, 40⟩⟩ :=
  claim_C8_margin_override ⟨⟨10, 20, 30, 40⟩⟩ [("top", 36)] (by decide)

/-- C9: `render_name` applies overrides to a fresh copy of the layout, so the
base `page_layout` object is never mutated across the render loop: every
group's effective layout is a function of the original base layout and that
group's own margins only. -/
theorem claim_C9_no_layout_mutation (base : QPageLayout) (ms : List (Option MarginsDict)) :
    convertLayouts base ms = ms.map (effectiveLayout base)
    ∧ ∀ m, (renderNameLayout base m).1 = base := by
  constructor
  · induction ms with
    | nil => rfl
    | cons m rest ih =>
      rw [convertLayouts]
      have hfst : (renderNameLayout base m).1 = base := by
        match m with
        | none => rfl
        | some d =>
          rw [renderNameLayout]
          by_cases hd : d.isEmpty
          · simp [hd]
          · simp [hd]
      rw [hfst, ih]
      rfl
  · intro m
    match m with
    | none => rfl
    | some d =>
      rw [renderNameLayout]
      by_cases hd : d.isEmpty
      · simp [hd]
      · simp [hd]

/-! ## Page reconciler (`get_anchor_locations`, lines 269-279) and the
render/accumulate loop of `convert` (lines 292-304)

A rendered group's document is modelled by its page count and the anchor map
`extract_anchors()` would return (anchor name → location); the floats
`left/top/zoom` are carried opaquely as integers, only `pagenum` is computed
with. -/

/-- `AnchorLocation = namedtuple('AnchorLocation', 'pagenum left top zoom')`
(line 266). -/
structure AnchorLocation where
  pagenum : Nat
  left : Int
  top : Int
  zoom : Int
deriving DecidableEq

structure PdfDoc where
  pageCount : Nat
  anchors : List (String × AnchorLocation)
deriving DecidableEq

/-- Page count after `for r in range(page_count, m - 1, -1): delete_page(r-1)`
(lines 273-274): the loop runs `max 0 (page_count - (m - 1))` times, each
iteration deleting one page, so `max 0 (page_count + 1 - m)` pages go away. -/
def deleteTrailing (pageCount m : Nat) : Nat :=
  pageCount - (pageCount + 1 - m)

/-- `get_anchor_locations(pdf_doc, first_page_num, toc_uuid)` (lines 269-279):
pops the marker entry (a missing marker raises `KeyError`, modelled `none`),
deletes every page from the end down to and including the marker's page, and
offsets every remaining anchor's page number by `first_page_num - 1`.
Returns the truncated document and the reconciled map. -/
def getAnchorLocations (doc : PdfDoc) (firstPageNum : Nat) (tocUuid : String) :
    Option (PdfDoc × List (String × AnchorLocation)) :=
  match alookup doc.anchors tocUuid with
  | none => none
  | some mloc =>
    let anchors := doc.anchors.filter (fun p => p.1 ≠ tocUuid)
    let newCount := deleteTrailing doc.pageCount mloc.pagenum
    let ans := anchors.map (fun p => (p.1, { p.2 with pagenum := p.2.pagenum + firstPageNum - 1 }))
    some ({ doc with pageCount := newCount }, ans)

/-- `anchor_locations.update(...)` (line 298) with Python dict semantics:
keys present in the update take the new value, the rest keep the old one. -/
def dictUpdate (old upd : List (String × AnchorLocation)) : List (String × AnchorLocation) :=
  old.filter (fun p => (alookup upd p.1).isNone) ++ upd

/-- The loop state of `convert` (lines 292-304): the running page count, the
document-wide anchor location table, and the accumulating final document
(modelled by its page count; `append` concatenates pages). -/
structure ConvState where
  numPages : Nat
  anchorLocations : List (String × AnchorLocation)
  pdfDoc : Option Nat
deriving DecidableEq

/-- One iteration of the `for group in margin_groups` loop (lines 295-304),
given the document the renderer produced for the group. -/
def convertStep (tocUuid : String) (st : ConvState) (doc : PdfDoc) : Option ConvState :=
  match getAnchorLocations doc (st.numPages + 1) tocUuid with
  | none => none
  | some (doc', ans) =>
    some { numPages := st.numPages + doc'.pageCount
           anchorLocations := dictUpdate st.anchorLocations ans
           pdfDoc := some (st.pdfDoc.getD 0 + doc'.pageCount) }

def convertLoop (tocUuid : String) : ConvState → List PdfDoc → Option ConvState
  | st, [] => some st
  | st, doc :: rest =>
    match convertStep tocUuid st doc with
    | none => none
    | some st' => convertLoop tocUuid st' rest

/-- The whole render/accumulate loop from its initial state
(`pdf_doc = None`, `anchor_locations = {}`, `num_pages = 0`). -/
def convertRender (tocUuid : String) (docs : List PdfDoc) : Option ConvState :=
  convertLoop tocUuid { numPages := 0, anchorLocations := [], pdfDoc := none } docs

/-- A rendered group is well-formed when the marker anchor is present on an
existing page and every real anchor sits on a content page strictly before
the marker page (the marker div forces a page break, so content never shares
its page). -/
def GroupWF (tocUuid : String) (doc : PdfDoc) : Prop :=
  ∃ mloc, alookup doc.anchors tocUuid = some mloc
    ∧ 1 ≤ mloc.pagenum ∧ mloc.pagenum ≤ doc.pageCount
    ∧ ∀ p ∈ doc.anchors, p.1 ≠ tocUuid → 1 ≤ p.2.pagenum ∧ p.2.pagenum < mloc.pagenum

/-- The group's page count after the marker page and trailing pages were
deleted, read off the extracted anchor map. -/
def postDeleteCount (tocUuid : String) (doc : PdfDoc) : Nat :=
  match alookup doc.anchors tocUuid with
  | none => doc.pageCount
  | some mloc => deleteTrailing doc.pageCount mloc.pagenum

section ReconcilerLemmas

theorem alookup_append {α β : Type} [DecidableEq α] (l₁ l₂ : List (α × β)) (k : α) :
    alookup (l₁ ++ l₂) k =
      match alookup l₁ k with
      | some v => some v
      | none => alookup l₂ k := by
  induction l₁ with
  | nil => simp
  | cons p rest ih =>
    obtain ⟨a, b⟩ := p
    by_cases h : k = a <;> simp [h, ih]

theorem alookup_filter_ne {β : Type} (l : List (String × β)) (k : String) :
    alookup (l.filter (fun p => p.1 ≠ k)) k = none := by
  induction l with
  | nil => rfl
  | cons p rest ih =>
    obtain ⟨a, b⟩ := p
    by_cases h : a = k
    · simpa [h] using ih
    · have hk : k ≠ a := fun hk => h hk.symm
      simpa [h, hk] using ih

theorem alookup_filter_none {α β : Type} [DecidableEq α] (l : List (α × β)) (f : α × β → Bool)
    (k : α) (h : alookup l k = none) : alookup (l.filter f) k = none := by
  induction l with
  | nil => rfl
  | cons p rest ih =>
    obtain ⟨a, b⟩ := p
    by_cases hk : k = a
    · simp [hk] at h
    · simp [hk] at h
      by_cases hf : f (a, b) <;> simp [hf, hk, ih h]

theorem alookup_map_value {α β γ : Type} [DecidableEq α] (l : List (α × β)) (g : α → β → γ)
    (k : α) : alookup (l.map (fun p => (p.1, g p.1 p.2))) k = (alookup l k).map (g k) := by
  induction l with
  | nil => rfl
  | cons p rest ih =>
    obtain ⟨a, b⟩ := p
    by_cases h : k = a
    · simp [h]
    · simp [h, ih]

theorem alookup_reconciled_none (l : List (String × AnchorLocation)) (off : Nat) (k : String) :
    alookup ((l.filter (fun p => p.1 ≠ k)).map
      (fun p => (p.1, { p.2 with pagenum := p.2.pagenum + off - 1 }))) k = none := by
  induction l with
  | nil => rfl
  | cons p rest ih =>
    obtain ⟨a, b⟩ := p
    by_cases h : a = k
    · simpa [h] using ih
    · have hk : k ≠ a := fun hk => h hk.symm
      simpa [h, hk] using ih

theorem alookup_dictUpdate_none (old upd : List (String × AnchorLocation)) (k : String)
    (h₁ : alookup old k = none) (h₂ : alookup upd k = none) :
    alookup (dictUpdate old upd) k = none := by
  rw [dictUpdate, alookup_append, alookup_filter_none old _ k h₁, h₂]

theorem getAnchorLocations_eq (doc : PdfDoc) (firstPageNum : Nat) (tocUuid : String)
    (mloc : AnchorLocation) (hm : alookup doc.anchors tocUuid = some mloc) :
    getAnchorLocations doc firstPageNum tocUuid =
      some ({ doc with pageCount := deleteTrailing doc.pageCount mloc.pagenum },
        (doc.anchors.filter (fun p => p.1 ≠ tocUuid)).map
          (fun p => (p.1, { p.2 with pagenum := p.2.pagenum + firstPageNum - 1 }))) := by
  rw [getAnchorLocations, hm]

theorem convertStep_eq (tocUuid : String) (st : ConvState) (doc : PdfDoc)
    (mloc : AnchorLocation) (hm : alookup doc.anchors tocUuid = some mloc) :
    convertStep tocUuid st doc =
      some { numPages := st.numPages + deleteTrailing doc.pageCount mloc.pagenum
             anchorLocations := dictUpdate st.anchorLocations
               ((doc.anchors.filter (fun p => p.1 ≠ tocUuid)).map
                 (fun p => (p.1, { p.2 with pagenum := p.2.pagenum + (st.numPages + 1) - 1 })))
             pdfDoc := some (st.pdfDoc.getD 0 + deleteTrailing doc.pageCount mloc.pagenum) } := by
  rw [convertStep, getAnchorLocations_eq doc (st.numPages + 1) tocUuid mloc hm]

theorem convertLoop_cons (tocUuid : String) (st st' : ConvState) (doc : PdfDoc)
    (docs : List PdfDoc) (h : convertStep tocUuid st doc = some st') :
    convertLoop tocUuid st (doc :: docs) = convertLoop tocUuid st' docs := by
  rw [convertLoop, h]

theorem deleteTrailing_eq (pageCount m : Nat) (h1 : 1 ≤ m) (h2 : m ≤ pageCount) :
    deleteTrailing pageCount m = m - 1 := by
  rw [deleteTrailing]
  omega

end ReconcilerLemmas

/-- C5: `get_anchor_locations` removes the MarkerId entry from the extracted
anchor map before returning — so the MarkerId never appears in the reconciled
location table of `convert` — notes the marker's page number `m`, and deletes
every page from the end down to and including page `m`, leaving exactly the
`m - 1` content pages before the marker. -/
theorem claim_C5_marker_stripping (doc : PdfDoc) (firstPageNum : Nat) (tocUuid : String)
    (mloc : AnchorLocation) (hm : alookup doc.anchors tocUuid = some mloc)
    (h1 : 1 ≤ mloc.pagenum) (h2 : mloc.pagenum ≤ doc.pageCount) :
    (getAnchorLocations doc firstPageNum tocUuid).isSome
    ∧ (∀ doc' ans, getAnchorLocations doc firstPageNum tocUuid = some (doc', ans) →
        alookup ans tocUuid = none ∧ doc'.pageCount = mloc.pagenum - 1)
    ∧ (∀ docs st, (∀ d ∈ docs, GroupWF tocUuid d) →
        convertRender tocUuid docs = some st →
        alookup st.anchorLocations tocUuid = none) := by
  have heq := getAnchorLocations_eq doc firstPageNum tocUuid mloc hm
  refine ⟨by rw [heq]; rfl, ?_, ?_⟩
  · intro doc' ans h
    rw [heq] at h
    obtain ⟨hd, ha⟩ := Prod.mk.injEq .. ▸ (Option.some.injEq _ _ ▸ h)
    constructor
    · rw [← ha]
      exact alookup_reconciled_none doc.anchors firstPageNum tocUuid
    · rw [← hd]
      exact deleteTrailing_eq doc.pageCount mloc.pagenum h1 h2
  · intro docs
    have hgen : ∀ (st₀ : ConvState), alookup st₀.anchorLocations tocUuid = none →
        ∀ st, (∀ d ∈ docs, GroupWF tocUuid d) →
        convertLoop tocUuid st₀ docs = some st →
        alookup st.anchorLocations tocUuid = none := by
      induction docs with
      | nil =>
        intro st₀ h₀ st _ hloop
        rw [convertLoop] at hloop
        cases hloop
        exact h₀
      | cons d rest ih =>
        intro st₀ h₀ st hwf hloop
        obtain ⟨ml, hml, -, -, -⟩ := hwf d (by simp)
        rw [convertLoop_cons tocUuid st₀ _ d rest (convertStep_eq tocUuid st₀ d ml hml)] at hloop
        refine ih _ ?_ st (fun x hx => hwf x (by simp [hx])) hloop
        refine alookup_dictUpdate_none _ _ _ h₀ ?_
        exact alookup_reconciled_none d.anchors (st₀.numPages + 1) tocUuid
    intro st hwf hrender
    exact hgen { numPages := 0, anchorLocations := [], pdfDoc := none } rfl st hwf hrender

/-- Witness for C5 at a concrete two-page group whose marker sits on page 2. -/
theorem claim_C5_witness :
    (getAnchorLocations ⟨2, [("M", ⟨2, 0, 0, 0⟩), ("x", ⟨1, 5, 6, 7⟩)]⟩ 1 "M").isSome
    ∧ (alookup [("x", AnchorLocation.mk 1 5 6 7)] "M" = none
        ∧ (PdfDoc.mk 1 [("M", ⟨2, 0, 0, 0⟩), ("x", ⟨1, 5, 6, 7⟩)]).pageCount = 2 - 1) := by
  have h := claim_C5_marker_stripping ⟨2, [("M", ⟨2, 0, 0, 0⟩), ("x", ⟨1, 5, 6, 7⟩)]⟩ 1 "M"
    ⟨2, 0, 0, 0⟩ (by decide) (by decide) (by decide)
  exact ⟨h.1, h.2.1 ⟨1, [("M", ⟨2, 0, 0, 0⟩), ("x", ⟨1, 5, 6, 7⟩)]⟩
    [("x", ⟨1, 5, 6, 7⟩)] (by decide)⟩

/-- Sum of the groups' page counts measured after marker/trailing deletion. -/
def totalContribution (tocUuid : String) (docs : List PdfDoc) : Nat :=
  (docs.map (postDeleteCount tocUuid)).sum

/-- `e` is an entry the reconciler recorded from group `i` of `docs`: its
location is some group-local anchor location with the page number increased
by `base` plus the contributions of the groups before group `i`. -/
def RecordedFrom (tocUuid : String) (docs : List PdfDoc) (base : Nat)
    (e : String × AnchorLocation) : Prop :=
  ∃ i doc, docs.get? i = some doc ∧ ∃ l : AnchorLocation,
    (e.1, l) ∈ doc.anchors ∧ e.1 ≠ tocUuid ∧
    e.2 = { l with pagenum :=
      l.pagenum + base + totalContribution tocUuid (docs.take i) }

theorem totalContribution_cons (tocUuid : String) (d : PdfDoc) (rest : List PdfDoc) :
    totalContribution tocUuid (d :: rest) =
      postDeleteCount tocUuid d + totalContribution tocUuid rest := by
  simp [totalContribution]

theorem convertLoop_spec (tocUuid : String) (docs : List PdfDoc) :
    ∀ st : ConvState, (∀ d ∈ docs, GroupWF tocUuid d) →
      ∃ stf, convertLoop tocUuid st docs = some stf
      ∧ stf.numPages = st.numPages + totalContribution tocUuid docs
      ∧ stf.pdfDoc = (if docs.isEmpty then st.pdfDoc
          else some (st.pdfDoc.getD 0 + totalContribution tocUuid docs))
      ∧ ∀ e ∈ stf.anchorLocations, e ∈ st.anchorLocations ∨
          (st.numPages + 1 ≤ e.2.pagenum ∧ e.2.pagenum ≤ stf.numPages ∧
            RecordedFrom tocUuid docs st.numPages e) := by
  induction docs with
  | nil =>
    intro st _
    exact ⟨st, rfl, by simp [totalContribution], by simp, fun e he => Or.inl he⟩
  | cons d rest ih =>
    intro st hwf
    obtain ⟨mloc, hm, hm1, hm2, hanch⟩ := hwf d (by simp)
    have hstep := convertStep_eq tocUuid st d mloc hm
    have hcd : deleteTrailing d.pageCount mloc.pagenum = postDeleteCount tocUuid d := by
      rw [postDeleteCount, hm]
    have hcdval : postDeleteCount tocUuid d = mloc.pagenum - 1 := by
      rw [← hcd]
      exact deleteTrailing_eq d.pageCount mloc.pagenum hm1 hm2
    obtain ⟨stf, hloop, hnum, hpdf, hrec⟩ := ih
      { numPages := st.numPages + deleteTrailing d.pageCount mloc.pagenum
        anchorLocations := dictUpdate st.anchorLocations
          ((d.anchors.filter (fun p => p.1 ≠ tocUuid)).map
            (fun p => (p.1, { p.2 with pagenum := p.2.pagenum + (st.numPages + 1) - 1 })))
        pdfDoc := some (st.pdfDoc.getD 0 + deleteTrailing d.pageCount mloc.pagenum) }
      (fun x hx => hwf x (by simp [hx]))
    dsimp only at hnum hpdf hrec
    refine ⟨stf, ?_, ?_, ?_, ?_⟩
    · rw [convertLoop_cons tocUuid st _ d rest hstep]
      exact hloop
    · rw [hnum, totalContribution_cons, hcd]
      simp [Nat.add_assoc]
    · rw [hpdf, totalContribution_cons, hcd]
      cases rest with
      | nil => simp [totalContribution]
      | cons r rs => simp [Nat.add_assoc]
    · intro e he
      rcases hrec e he with hin | ⟨hlo, hhi, i, doc, hget, l, hmem, hne, hloc⟩
      · rw [dictUpdate] at hin
        rcases List.mem_append.mp hin with hold | hnew
        · exact Or.inl (List.mem_of_mem_filter hold)
        · obtain ⟨p, hp, hpe⟩ := List.mem_map.mp hnew
          obtain ⟨hpmem, hpne⟩ := List.mem_filter.mp hp
          have hpne' : p.1 ≠ tocUuid := by simpa using hpne
          obtain ⟨hplo, hphi⟩ := hanch p hpmem hpne'
          have he1 : e.1 = p.1 := by rw [← hpe]
          have he2 : e.2 = { p.2 with pagenum := p.2.pagenum + (st.numPages + 1) - 1 } := by
            rw [← hpe]
          have hpag : e.2.pagenum = p.2.pagenum + st.numPages := by
            rw [he2]
            show p.2.pagenum + (st.numPages + 1) - 1 = p.2.pagenum + st.numPages
            omega
          refine Or.inr ⟨by omega, by omega, ?_⟩
          refine ⟨0, d, rfl, p.2, ?_, by rw [he1]; exact hpne', ?_⟩
          · rw [he1]
            simpa using hpmem
          · rw [he2]
            refine congrArg (fun n => { p.2 with pagenum := n }) ?_
            simp [totalContribution]
      · refine Or.inr ⟨by omega, hhi, ?_⟩
        refine ⟨i + 1, doc, hget, l, hmem, hne, ?_⟩
        rw [hloc]
        refine congrArg (fun n => { l with pagenum := n }) ?_
        rw [List.take_succ_cons, totalContribution_cons, hcd]
        omega

/-- C2: after processing the first `i` groups, the running global page count
equals the sum over those groups of the page count measured after the marker
and trailing pages were deleted; every recorded anchor location is a group's
local location with its page number increased by the count accumulated before
that group (the first content page of the first group keeps page number 1),
and every recorded global page number lies in `[1, final page count]` of the
accumulated document, whose page count equals the running count. -/
theorem claim_C2_page_offset_monotonicity (tocUuid : String) (docs : List PdfDoc)
    (hwf : ∀ d ∈ docs, GroupWF tocUuid d) (i : Nat) :
    (convertRender tocUuid (docs.take i)).isSome
    ∧ ∀ st, convertRender tocUuid (docs.take i) = some st →
        st.numPages = totalContribution tocUuid (docs.take i)
        ∧ st.pdfDoc.getD 0 = st.numPages
        ∧ ∀ e ∈ st.anchorLocations,
            1 ≤ e.2.pagenum ∧ e.2.pagenum ≤ st.numPages
            ∧ RecordedFrom tocUuid (docs.take i) 0 e := by
  obtain ⟨stf, hloop, hnum, hpdf, hrec⟩ := convertLoop_spec tocUuid (docs.take i)
    { numPages := 0, anchorLocations := [], pdfDoc := none }
    (fun d hd => hwf d (List.take_subset i docs hd))
  constructor
  · rw [convertRender, hloop]
    rfl
  · intro st hst
    rw [convertRender] at hst
    rw [hloop] at hst
    cases hst
    refine ⟨by simpa using hnum, ?_, ?_⟩
    · rw [hpdf]
      by_cases hemp : (docs.take i).isEmpty
      · simp [hemp, List.isEmpty_iff.mp hemp, totalContribution, hnum]
      · simp only [hemp, if_false]
        simpa using hnum.symm
    · intro e he
      rcases hrec e he with hin | ⟨hlo, hhi, hrf⟩
      · simp at hin
      · exact ⟨by omega, hhi, by simpa using hrf⟩

/-- Witness for C2 at two concrete well-formed groups (marker on page 3 of a
3-page group, then page 2 of a 2-page group): contributions 2 and 1, final
count 3, anchor `y` recorded at global page 3. -/
theorem claim_C2_witness :
    ConvState.numPages ⟨3, [("x", ⟨1, 5, 6, 7⟩), ("y", ⟨3, 1, 2, 3⟩)], some 3⟩ =
      totalContribution "M"
        (([⟨3, [("M", ⟨3, 0, 0, 0⟩), ("x", ⟨1, 5, 6, 7⟩)]⟩,
           ⟨2, [("M", ⟨2, 0, 0, 0⟩), ("y", ⟨1, 1, 2, 3⟩)]⟩] : List PdfDoc).take 2)
    ∧ (1 ≤ (("y", AnchorLocation.mk 3 1 2 3) : String × AnchorLocation).2.pagenum
        ∧ (("y", AnchorLocation.mk 3 1 2 3) : String × AnchorLocation).2.pagenum ≤
            ConvState.numPages ⟨3, [("x", ⟨1, 5, 6, 7⟩), ("y", ⟨3, 1, 2, 3⟩)], some 3⟩) := by
  have hwf : ∀ d ∈ ([⟨3, [("M", ⟨3, 0, 0, 0⟩), ("x", ⟨1, 5, 6, 7⟩)]⟩,
      ⟨2, [("M", ⟨2, 0, 0, 0⟩), ("y", ⟨1, 1, 2, 3⟩)]⟩] : List PdfDoc), GroupWF "M" d := by
    intro d hd
    rcases List.mem_cons.mp hd with rfl | hd
    · exact ⟨⟨3, 0, 0, 0⟩, rfl, by decide, by decide, by decide⟩
    rcases List.mem_cons.mp hd with rfl | hd
    · exact ⟨⟨2, 0, 0, 0⟩, rfl, by decide, by decide, by decide⟩
    · simp at hd
  have h := (claim_C2_page_offset_monotonicity "M"
    [⟨3, [("M", ⟨3, 0, 0, 0⟩), ("x", ⟨1, 5, 6, 7⟩)]⟩,
     ⟨2, [("M", ⟨2, 0, 0, 0⟩), ("y", ⟨1, 1, 2, 3⟩)]⟩] hwf 2).2
    ⟨3, [("x", ⟨1, 5, 6, 7⟩), ("y", ⟨3, 1, 2, 3⟩)], some 3⟩ (by decide)
  refine ⟨h.1, ?_⟩
  have hy := h.2.2 ("y", ⟨3, 1, 2, 3⟩) (by decide)
  exact ⟨hy.1, hy.2.1⟩

/-! ## Serialization with no groups (`convert`, lines 292-318) -/

/-- `pdf_data = pdf_doc.write()` (line 318): on `pdf_doc = None` Python
raises `AttributeError` (`None` has no attribute `write`); otherwise the
accumulated document is serialized. -/
def serializeFinal (pdfDoc : Option Nat) : Except PyFailure Nat :=
  match pdfDoc with
  | none => .error .attributeErrorNoneWrite
  | some d => .ok d

/-- C10: with an empty spine the container yields no margin groups, the
accumulating `pdf_doc` stays `None` through the loop, and the serialization
step fails with an `AttributeError` — which is none of the three documented
render failure causes — rather than producing an empty document. -/
theorem claim_C10_empty_spine :
    createMarginGroups ([] : List (String × Option MarginsDict)) = []
    ∧ (∀ uuid st, convertRender uuid [] = some st → st.pdfDoc = none)
    ∧ serializeFinal none = .error .attributeErrorNoneWrite
    ∧ (∀ path, (PyFailure.attributeErrorNoneWrite : PyFailure) ≠ .loadFailed path)
    ∧ (PyFailure.attributeErrorNoneWrite : PyFailure) ≠ .killSignal
    ∧ (PyFailure.attributeErrorNoneWrite : PyFailure) ≠ .unknownError
    ∧ (∀ b, serializeFinal none ≠ .ok b) := by
  refine ⟨rfl, ?_, rfl, ?_, by decide, by decide, ?_⟩
  · intro uuid st h
    rw [convertRender, convertLoop] at h
    cases h
    rfl
  · intro path h
    cases h
  · intro b h
    cases h

/-- Witness for C10: the loop on no groups leaves `pdf_doc = None`. -/
theorem claim_C10_witness :
    ConvState.pdfDoc ⟨0, [], none⟩ = none
    ∧ (PyFailure.attributeErrorNoneWrite : PyFailure) ≠ .loadFailed "f.html"
    ∧ serializeFinal none ≠ .ok 5 :=
  ⟨claim_C10_empty_spine.2.1 "u" ⟨0, [], none⟩ rfl,
   claim_C10_empty_spine.2.2.2.1 "f.html",
   claim_C10_empty_spine.2.2.2.2.2.2 5⟩

/-! ## Link rewriting (`make_anchors_unique.replacer`, lines 230-249)

The container's `href_to_name` resolver is an external collaborator (spec §1);
it is a parameter returning `none` for falsy results.  URLs are strings; the
character-level split at the first `#` models `url.partition('#')[::2]`. -/

/-- `url.partition('#')[::2]`: the part before the first `#`, and everything
after it. -/
def strPartitionHash (url : String) : String × String :=
  ((url.data.takeWhile (fun c => c ≠ '#')).asString,
   ((url.data.dropWhile (fun c => c ≠ '#')).drop 1).asString)

/-- `replacer(url)` (lines 230-249): empty url or url without `#` returned
unchanged; a url starting with `#` resolves `href := base`; otherwise the url
splits at the first `#`; a falsy resolver result or a `(name, frag)` key
missing from `mapping` leaves the url unchanged; otherwise the fragment is
replaced by the new id. -/
def replacer (hrefToName : String → String → Option String) (mapping : IdMapping)
    (base : String) (url : String) : String :=
  if url = "" then url
  else if '#' ∈ url.data then
    let hf := if url.data.head? = some '#' then (base, (url.data.drop 1).asString)
              else strPartitionHash url
    match hrefToName hf.1 base with
    | none => url
    | some name =>
      match alookup mapping (name, hf.2) with
      | none => url
      | some newFrag =>
        if url.data.head? = some '#' then "#" ++ newFrag
        else hf.1 ++ "#" ++ newFrag
  else url

theorem replacer_hash_head {url : String} (h : url.data.head? = some '#') :
    ∀ (hrefToName : String → String → Option String) (mapping : IdMapping) (base : String),
      replacer hrefToName mapping base url =
        match hrefToName base base with
        | none => url
        | some name =>
          match alookup mapping (name, (url.data.drop 1).asString) with
          | none => url
          | some newFrag => "#" ++ newFrag := by
  intro hrefToName mapping base
  have hne : url ≠ "" := by
    intro hc
    rw [hc] at h
    simp at h
  have hmem : '#' ∈ url.data := by
    match hd : url.data, h with
    | c :: cs, h =>
      simp [hd] at h
      simp [h]
  rw [replacer, if_neg hne, if_pos hmem]
  simp [h]

/-- C4: an empty URL or one with no fragment separator is left unchanged; a
fragment-only reference resolves against the link's own section (`href :=
base`); otherwise the non-fragment part is resolved through the container's
href resolver; a failed resolution or a missing `(section, fragment)` mapping
key leaves the link untouched; a hit rewrites the link to the new id. -/
theorem claim_C4_link_rewriting (hrefToName : String → String → Option String)
    (mapping : IdMapping) (base url : String) :
    (url = "" → replacer hrefToName mapping base url = url)
    ∧ ('#' ∉ url.data → replacer hrefToName mapping base url = url)
    ∧ (url.data.head? = some '#' →
        replacer hrefToName mapping base url =
          match hrefToName base base with
          | none => url
          | some name =>
            match alookup mapping (name, (url.data.drop 1).asString) with
            | none => url
            | some newFrag => "#" ++ newFrag)
    ∧ (url ≠ "" → '#' ∈ url.data → url.data.head? ≠ some '#' →
        (hrefToName (strPartitionHash url).1 base = none →
          replacer hrefToName mapping base url = url)
        ∧ (∀ name, hrefToName (strPartitionHash url).1 base = some name →
            (alookup mapping (name, (strPartitionHash url).2) = none →
              replacer hrefToName mapping base url = url)
            ∧ (∀ newFrag, alookup mapping (name, (strPartitionHash url).2) = some newFrag →
                replacer hrefToName mapping base url =
                  (strPartitionHash url).1 ++ "#" ++ newFrag))) := by
  refine ⟨?_, ?_, ?_, ?_⟩
  · intro h
    rw [replacer, if_pos h]
  · intro h
    rw [replacer]
    by_cases he : url = ""
    · rw [if_pos he]
    · rw [if_neg he, if_neg h]
  · intro h
    exact replacer_hash_head h hrefToName mapping base
  · intro hne hmem hhd
    have hif : (url.data.head? = some '#') = False := by
      simp [hhd]
    refine ⟨?_, ?_⟩
    · intro hres
      rw [replacer, if_neg hne, if_pos hmem]
      simp only [hif, if_false, hres]
    · intro name hres
      refine ⟨?_, ?_⟩
      · intro hmap
        rw [replacer, if_neg hne, if_pos hmem]
        simp only [hif, if_false, hres, hmap]
      · intro newFrag hmap
        rw [replacer, if_neg hne, if_pos hmem]
        simp only [hif, if_false, hres, hmap]

/-- Witness for C4: a resolver knowing only `"s.html" ↦ "s"` and the mapping
`("s","x") ↦ "a1"`: a fragment-only link in section `s.html` is rewritten to
`#a1`; a cross-file link `s.html#x` becomes `s.html#a1`; a link to an unknown
file and a link with an unknown fragment stay unchanged. -/
theorem claim_C4_witness :
    replacer (fun href _ => if href = "s.html" then some "s" else none)
      [(("s", "x"), "a1")] "t.html" "" = ""
    ∧ replacer (fun href _ => if href = "s.html" then some "s" else none)
        [(("s", "x"), "a1")] "t.html" "plain.html" = "plain.html"
    ∧ replacer (fun href _ => if href = "s.html" then some "s" else none)
        [(("s", "x"), "a1")] "s.html" "#x" = "#a1"
    ∧ replacer (fun href _ => if href = "s.html" then some "s" else none)
        [(("s", "x"), "a1")] "t.html" "other.html#x" = "other.html#x"
    ∧ replacer (fun href _ => if href = "s.html" then some "s" else none)
        [(("s", "x"), "a1")] "t.html" "s.html#nope" = "s.html#nope"
    ∧ replacer (fun href _ => if href = "s.html" then some "s" else none)
        [(("s", "x"), "a1")] "t.html" "s.html#x" = "s.html#a1" := by
  refine ⟨?_, ?_, ?_, ?_, ?_, ?_⟩
  · exact (claim_C4_link_rewriting _ [(("s", "x"), "a1")] "t.html" "").1 rfl
  · exact (claim_C4_link_rewriting _ [(("s", "x"), "a1")] "t.html" "plain.html").2.1 (by decide)
  · have h := (claim_C4_link_rewriting
      (fun href _ => if href = "s.html" then some "s" else none)
      [(("s", "x"), "a1")] "s.html" "#x").2.2.1 (by decide)
    simpa using h
  · exact ((claim_C4_link_rewriting _ [(("s", "x"), "a1")] "t.html" "other.html#x").2.2.2
      (by decide) (by decide) (by decide)).1 (by decide)
  · exact (((claim_C4_link_rewriting _ [(("s", "x"), "a1")] "t.html" "s.html#nope").2.2.2
      (by decide) (by decide) (by decide)).2 "s" (by decide)).1 (by decide)
  · have h := (((claim_C4_link_rewriting
      (fun href _ => if href = "s.html" then some "s" else none)
      [(("s", "x"), "a1")] "t.html" "s.html#x").2.2.2
      (by decide) (by decide) (by decide)).2 "s" (by decide)).2 "a1" (by decide)
    simpa using h

/-! ## TOC marker injection (`add_anchors_markup` lines 195-205,
`add_toc_links` lines 208-222)

Markup trees are modelled by a nested inductive: an element has a tag, an
attribute list, text, tail and children (the lxml data the code touches).
`XHTML(tag)` produces the Clark-notation name
`\x7bhttp://www.w3.org/1999/xhtml\x7dtag`. -/

inductive XNode where
  | elem (tag : String) (attrs : List (String × String)) (text : String) (tail : String)
      (children : List XNode)

def XNode.attrs : XNode → List (String × String)
  | .elem _ a _ _ _ => a

def XNode.children : XNode → List XNode
  | .elem _ _ _ _ cs => cs

def XNode.withChildren : XNode → List XNode → XNode
  | .elem t a tx tl _, cs => .elem t a tx tl cs

/-- `parent.append(child)`. -/
def XNode.appendChild (n c : XNode) : XNode :=
  n.withChildren (n.children ++ [c])

/-- `XHTML(tag)` from `calibre.ebooks.oeb.base`: the XHTML-namespaced tag. -/
def xhtmlName (tag : String) : String := "\x7bhttp://www.w3.org/1999/xhtml\x7d" ++ tag

/-- The marker block built by `add_anchors_markup` (lines 197-205): a div
carrying the MarkerId as its id, styled to force a page break before it, one
link per anchor in enumeration order (text = its index), and a final link
back at the marker's own id (text `top`). -/
def markerDiv (uuid : String) (anchors : List String) : XNode :=
  .elem (xhtmlName "div") [("id", uuid), ("style", "page-break-before: always")] "" ""
    ((anchors.enum.map (fun p =>
        XNode.elem (xhtmlName "a") [("href", "#" ++ p.2)] (Nat.repr p.1) " " [])) ++
     [XNode.elem (xhtmlName "a") [("href", "#" ++ uuid)] "top" " " []])

/-- `add_anchors_markup(root, uuid, anchors)`: `body = root[-1]` (an empty
root raises `IndexError`, modelled `none`), then the marker div is appended
to the body. -/
def addAnchorsMarkup (root : XNode) (uuid : String) (anchors : List String) : Option XNode :=
  match root.children.getLast? with
  | none => none
  | some body =>
    some (root.withChildren (root.children.dropLast ++
      [body.appendChild (markerDiv uuid anchors)]))

/-- A table-of-contents entry (`item.dest`, `item.frag`); empty strings model
falsy values. -/
structure TocItem where
  dest : String
  frag : String

/-- Pointwise update of an association list at a present key. -/
def aupdate {β : Type} (m : List (String × β)) (k : String) (v : β) : List (String × β) :=
  m.map (fun p => if p.1 = k then (k, v) else p)

/-- `name_anchor_map.setdefault(item.dest, set()).add(item.frag)` (lines
215-216); the set is modelled as an insertion-ordered list without
duplicates. -/
def addAnchor (m : List (String × List String)) (dest frag : String) :
    List (String × List String) :=
  match alookup m dest with
  | none => m ++ [(dest, [frag])]
  | some frags => aupdate m dest (if frag ∈ frags then frags else frags ++ [frag])

/-- The `name_anchor_map` built from the ToC descendants (lines 212-216):
only items with truthy `dest` and `frag` contribute. -/
def nameAnchorMap (items : List TocItem) : List (String × List String) :=
  items.foldl
    (fun m it => if it.dest ≠ "" ∧ it.frag ≠ "" then addAnchor m it.dest it.frag else m) []

/-- The `for group in margin_groups` loop of `add_toc_links` (lines 217-221):
`name = group[0][0]`, the parsed tree of that name gets the marker appended;
`trees` is the container's parsed-tree cache. -/
def addTocLinksAux (uuid : String) (amap : List (String × List String)) :
    List (String × XNode) → List (List (String × Option MarginsDict)) →
    Option (List (String × XNode))
  | trees, [] => some trees
  | trees, g :: gs =>
    match g.head? with
    | none => none
    | some (name, _) =>
      match alookup trees name with
      | none => none
      | some root =>
        match addAnchorsMarkup root uuid ((alookup amap name).getD []) with
        | none => none
        | some root' => addTocLinksAux uuid amap (aupdate trees name root') gs

/-- `add_toc_links` (lines 208-222): one `uuid` is generated for the whole
conversion (here a parameter, `uuid4()` being external randomness) and reused
for every group; returns the updated trees and the MarkerId. -/
def addTocLinks (uuid : String) (trees : List (String × XNode)) (items : List TocItem)
    (groups : List (List (String × Option MarginsDict))) :
    Option (List (String × XNode)) × String :=
  (addTocLinksAux uuid (nameAnchorMap items) trees groups, uuid)

/-- The representative section names of the groups, in order. -/
def groupReps (groups : List (List (String × Option MarginsDict))) : List String :=
  groups.filterMap (fun g => g.head?.map Prod.fst)

section TocLemmas

theorem alookup_aupdate_ne {β : Type} (m : List (String × β)) (k name : String) (v : β)
    (h : name ≠ k) : alookup (aupdate m k v) name = alookup m name := by
  induction m with
  | nil => rfl
  | cons p rest ih =>
    obtain ⟨a, b⟩ := p
    rw [aupdate, List.map_cons]
    by_cases ha : a = k
    · have hna : name ≠ a := fun hc => h (hc.trans ha)
      rw [if_pos ha]
      simp only [alookup_cons, if_neg h, if_neg hna]
      exact ih
    · rw [if_neg ha]
      simp only [alookup_cons]
      by_cases hn : name = a
      · rw [if_pos hn, if_pos hn]
      · rw [if_neg hn, if_neg hn]
        exact ih

theorem alookup_aupdate_found {β : Type} (m : List (String × β)) (k : String) (v w : β)
    (h : alookup m k = some w) : alookup (aupdate m k v) k = some v := by
  induction m with
  | nil => simp at h
  | cons p rest ih =>
    obtain ⟨a, b⟩ := p
    rw [aupdate, List.map_cons]
    by_cases ha : a = k
    · rw [if_pos ha]
      simp
    · have ha' : k ≠ a := fun hc => ha hc.symm
      rw [if_neg ha]
      simp only [alookup_cons, if_neg ha']
      simp only [alookup_cons, if_neg ha'] at h
      exact ih h

theorem addAnchorsMarkup_some (root body : XNode) (uuid : String) (anchors : List String)
    (h : root.children.getLast? = some body) :
    addAnchorsMarkup root uuid anchors =
      some (root.withChildren (root.children.dropLast ++
        [body.appendChild (markerDiv uuid anchors)])) := by
  rw [addAnchorsMarkup, h]

theorem addTocLinksAux_cons_ok (uuid : String) (amap : List (String × List String))
    (trees : List (String × XNode)) (g : List (String × Option MarginsDict))
    (gs : List (List (String × Option MarginsDict))) (name : String)
    (m : Option MarginsDict) (root root' : XNode)
    (hh : g.head? = some (name, m)) (ht : alookup trees name = some root)
    (hb : addAnchorsMarkup root uuid ((alookup amap name).getD []) = some root') :
    addTocLinksAux uuid amap trees (g :: gs) =
      addTocLinksAux uuid amap (aupdate trees name root') gs := by
  rw [addTocLinksAux]
  simp only [hh, ht, hb]

theorem addTocLinksAux_preserve (uuid : String) (amap : List (String × List String))
    (groups : List (List (String × Option MarginsDict))) :
    ∀ (trees trees' : List (String × XNode)) (name : String),
      addTocLinksAux uuid amap trees groups = some trees' →
      name ∉ groupReps groups →
      alookup trees' name = alookup trees name := by
  induction groups with
  | nil =>
    intro trees trees' name h _
    rw [addTocLinksAux] at h
    cases h
    rfl
  | cons g gs ih =>
    intro trees trees' name h hrep
    match hh : g.head? with
    | none =>
      rw [addTocLinksAux] at h
      simp only [hh] at h
      cases h
    | some (gname, gm) =>
      have hgrep : groupReps (g :: gs) = gname :: groupReps gs := by
        simp [groupReps, List.filterMap_cons, hh]
      rw [hgrep] at hrep
      have hne : name ≠ gname := fun hc => hrep (by simp [hc])
      have hrep2 : name ∉ groupReps gs := fun hc => hrep (by simp [hc])
      match ht : alookup trees gname with
      | none =>
        rw [addTocLinksAux] at h
        simp only [hh, ht] at h
        cases h
      | some root =>
        match hb : addAnchorsMarkup root uuid ((alookup amap gname).getD []) with
        | none =>
          rw [addTocLinksAux] at h
          simp only [hh, ht, hb] at h
          cases h
        | some root' =>
          rw [addTocLinksAux_cons_ok uuid amap trees g gs gname gm root root' hh ht hb] at h
          rw [ih (aupdate trees gname root') trees' name h hrep2,
            alookup_aupdate_ne trees gname name root' hne]

theorem addTocLinksAux_spec (uuid : String) (amap : List (String × List String))
    (groups : List (List (String × Option MarginsDict))) :
    ∀ (trees trees' : List (String × XNode)),
      (groupReps groups).Nodup →
      addTocLinksAux uuid amap trees groups = some trees' →
      ∀ g ∈ groups, ∀ (name : String) (m : Option MarginsDict), g.head? = some (name, m) →
      ∀ root, alookup trees name = some root →
      ∀ body, root.children.getLast? = some body →
      alookup trees' name = some (root.withChildren (root.children.dropLast ++
        [body.appendChild (markerDiv uuid ((alookup amap name).getD []))])) := by
  induction groups with
  | nil =>
    intro trees trees' _ _ g hg
    simp at hg
  | cons g gs ih =>
    intro trees trees' hnd h g' hg' name m hhead root hroot body hbody
    match hh : g.head? with
    | none =>
      rw [addTocLinksAux] at h
      simp only [hh] at h
      cases h
    | some (gname, gm) =>
      have hgrep : groupReps (g :: gs) = gname :: groupReps gs := by
        simp [groupReps, List.filterMap_cons, hh]
      rw [hgrep] at hnd
      have hnotin : gname ∉ groupReps gs := (List.nodup_cons.mp hnd).1
      match ht : alookup trees gname with
      | none =>
        rw [addTocLinksAux] at h
        simp only [hh, ht] at h
        cases h
      | some groot =>
        match hb : addAnchorsMarkup groot uuid ((alookup amap gname).getD []) with
        | none =>
          rw [addTocLinksAux] at h
          simp only [hh, ht, hb] at h
          cases h
        | some groot' =>
          rw [addTocLinksAux_cons_ok uuid amap trees g gs gname gm groot groot' hh ht hb] at h
          rcases List.mem_cons.mp hg' with rfl | hmem
          · have hname : name = gname := by
              rw [hh] at hhead
              cases hhead
              rfl
            subst hname
            have hroot2 : groot = root := by
              rw [ht] at hroot
              cases hroot
              rfl
            subst hroot2
            rw [addTocLinksAux_preserve uuid amap gs (aupdate trees name groot') trees' name
              h hnotin]
            rw [alookup_aupdate_found trees name groot' groot ht]
            rw [addAnchorsMarkup_some groot body uuid ((alookup amap name).getD []) hbody] at hb
            exact hb.symm
          · have hnamein : name ∈ groupReps gs := by
              refine List.mem_filterMap.mpr ⟨g', hmem, ?_⟩
              rw [hhead]
              rfl
            have hne : name ≠ gname := fun hc => hnotin (hc ▸ hnamein)
            refine ih (aupdate trees gname groot') trees' (List.nodup_cons.mp hnd).2 h
              g' hmem name m hhead root ?_ body hbody
            rw [alookup_aupdate_ne trees gname name groot' hne]
            exact hroot

end TocLemmas

/-- C7: `add_toc_links` uses one MarkerId for the whole conversion, reused
for every group; for each group it appends to the representative section's
body a block carrying that MarkerId as its id, styled to force a page break
before it, containing one link per fragment reachable from the ToC for that
section (in stable enumeration order, each pointing at `#<fragment>`), plus a
final link back at the marker's own id. -/
theorem claim_C7_marker_pages (uuid : String) (trees : List (String × XNode))
    (items : List TocItem) (groups : List (List (String × Option MarginsDict)))
    (trees' : List (String × XNode))
    (hnd : (groupReps groups).Nodup)
    (h : (addTocLinks uuid trees items groups).1 = some trees') :
    (addTocLinks uuid trees items groups).2 = uuid
    ∧ (∀ anchors, (markerDiv uuid anchors).attrs =
          [("id", uuid), ("style", "page-break-before: always")]
        ∧ (markerDiv uuid anchors).children =
          (anchors.enum.map (fun p =>
            XNode.elem (xhtmlName "a") [("href", "#" ++ p.2)] (Nat.repr p.1) " " [])) ++
          [XNode.elem (xhtmlName "a") [("href", "#" ++ uuid)] "top" " " []])
    ∧ (∀ g ∈ groups, ∀ (name : String) (m : Option MarginsDict), g.head? = some (name, m) →
        ∀ root, alookup trees name = some root →
        ∀ body, root.children.getLast? = some body →
        alookup trees' name = some (root.withChildren (root.children.dropLast ++
          [body.appendChild (markerDiv uuid
            ((alookup (nameAnchorMap items) name).getD []))]))) :=
  ⟨rfl, fun _ => ⟨rfl, rfl⟩,
   addTocLinksAux_spec uuid (nameAnchorMap items) groups trees trees' hnd h⟩

/-- Witness for C7: one group over section `s` whose ToC reaches fragments
`x` and `y` (with a duplicate entry and a falsy entry dropped): the section's
body gets exactly the marker div appended, and the marker's structure is the
enumerated links plus the back link. -/
theorem claim_C7_witness :
    alookup [("s", XNode.elem "html" [] "" ""
        [XNode.elem "body" [] "" "" [markerDiv "U" ["x", "y"]]])] "s"
      = some (XNode.elem "html" [] "" ""
        [XNode.elem "body" [] "" "" [markerDiv "U" ["x", "y"]]])
    ∧ (markerDiv "U" ["x", "y"]).attrs = [("id", "U"), ("style", "page-break-before: always")] := by
  have h := claim_C7_marker_pages "U"
    [("s", XNode.elem "html" [] "" "" [XNode.elem "body" [] "" "" []])]
    [⟨"s", "x"⟩, ⟨"s", "y"⟩, ⟨"s", "x"⟩, ⟨"", "z"⟩]
    [[("s", none)]]
    [("s", XNode.elem "html" [] "" "" [XNode.elem "body" [] "" "" [markerDiv "U" ["x", "y"]]])]
    (by decide) rfl
  refine ⟨?_, (h.2.1 ["x", "y"]).1⟩
  have hc := h.2.2 [("s", none)] (by simp) "s" none rfl
    (XNode.elem "html" [] "" "" [XNode.elem "body" [] "" "" []]) rfl
    (XNode.elem "body" [] "" "" []) rfl
  exact hc

end HtmlWriter
